import Mathlib

/-!
Shallow embedding of the markdown anchor-fixing scripts of this
repository: fix-anchors.py (slug derivation `create_github_anchor`,
emoji removal `remove_emojis`), fix-anchors-auto.py
(`fix_markdown_file`, the rule tables and the main loop) and
fix-links.py (the hardcoded double-hyphen replacement).

Python strings are modelled as lists of Unicode scalar values
(Lean `Char`).  The Unicode tables behind Python's regex classes
`\w` and `\s` and behind `str.lower` are too large to transcribe, so
they are a parameter of the embedding: the structure `CharClass`
carries the three tables together with four facts that hold of
Python's actual tables and are needed in proofs (lowercasing is
idempotent per code point, `-` lowercases to itself, `#` is not a
word character, and no code point of the emoji ranges is a word
character).  The instance `asciiCC` reproduces Python's tables
exactly on ASCII code points; the emoji table itself is explicit in
the source regex and is transcribed exactly in `isEmojiChar`.
-/

/-- Membership test for the six codepoint ranges of the emoji regex in
`remove_emojis` (fix-anchors.py line 13). -/
def isEmojiChar (c : Char) : Bool :=
  (decide (0x1F600 ≤ c.toNat) && decide (c.toNat ≤ 0x1F64F)) ||
  (decide (0x1F300 ≤ c.toNat) && decide (c.toNat ≤ 0x1F5FF)) ||
  (decide (0x1F680 ≤ c.toNat) && decide (c.toNat ≤ 0x1F6FF)) ||
  (decide (0x1F1E0 ≤ c.toNat) && decide (c.toNat ≤ 0x1F1FF)) ||
  (decide (0x2600 ≤ c.toNat) && decide (c.toNat ≤ 0x26FF)) ||
  (decide (0x2700 ≤ c.toNat) && decide (c.toNat ≤ 0x27BF))

/-- The character tables used by `create_github_anchor`: the regex
classes `\w` and `\s` of Python's `re` module and the per-codepoint
lowercasing of `str.lower`, bundled with facts of Python's tables
that the proofs use. -/
structure CharClass where
  isWord : Char → Bool
  isSpace : Char → Bool
  lower : Char → Char
  lower_idem : ∀ c, lower (lower c) = lower c
  lower_dash : lower '-' = '-'
  word_hash : isWord '#' = false
  word_emoji : ∀ c, isWord c = true → isEmojiChar c = false

/-- The character class `[-\s]` of the hyphen-collapsing regex. -/
def isDash (cc : CharClass) (c : Char) : Bool :=
  c == '-' || cc.isSpace c

/-- The character class `[\w\s-]`: a character survives the
`re.sub(r'[^\w\s-]', '', title)` step iff this is true. -/
def keepChar (cc : CharClass) (c : Char) : Bool :=
  cc.isWord c || cc.isSpace c || c == '-'

/-- `re.sub(r'^#+\s*', '', title)`: the anchored pattern matches only
at the start of the string, removing the maximal leading run of `#`
and the maximal whitespace run following it. -/
def stripHeader (cc : CharClass) (s : List Char) : List Char :=
  match s with
  | [] => []
  | c :: rest =>
    if c = '#' then (rest.dropWhile (fun d => d == '#')).dropWhile cc.isSpace
    else c :: rest

/-- `remove_emojis` (fix-anchors.py lines 11-13). -/
def remove_emojis (s : List Char) : List Char :=
  s.filter (fun c => !(isEmojiChar c))

/-- Worker for the `re.sub(r'[-\s]+', '-', title)` step: each maximal
run of characters in the class `[-\s]` becomes a single hyphen.  The
flag records whether the scan is inside such a run. -/
def collapseAux (cc : CharClass) : Bool → List Char → List Char
  | _, [] => []
  | inRun, c :: rest =>
    if isDash cc c then
      if inRun then collapseAux cc true rest
      else '-' :: collapseAux cc true rest
    else c :: collapseAux cc false rest

/-- `re.sub(r'[-\s]+', '-', title)`. -/
def collapseRuns (cc : CharClass) (s : List Char) : List Char :=
  collapseAux cc false s

/-- `title.strip('-')`: remove leading and trailing hyphens. -/
def stripDashes (s : List Char) : List Char :=
  (((s.dropWhile (fun c => c == '-')).reverse.dropWhile (fun c => c == '-')).reverse)

/-- The slug body built by `create_github_anchor` before the final
`#` prefix: strip the header marker, remove emojis, lowercase, delete
characters outside `[\w\s-]`, collapse `[-\s]` runs to single
hyphens, strip boundary hyphens (fix-anchors.py lines 17-27). -/
def slugCore (cc : CharClass) (s : List Char) : List Char :=
  stripDashes (collapseRuns cc
    (((remove_emojis (stripHeader cc s)).map cc.lower).filter (keepChar cc)))

/-- `create_github_anchor` (fix-anchors.py lines 15-28). -/
def create_github_anchor (cc : CharClass) (s : List Char) : List Char :=
  '#' :: slugCore cc s

/-- Python's `\w` restricted to ASCII: `[a-zA-Z0-9_]`. -/
def asciiWord (c : Char) : Bool :=
  (decide (97 ≤ c.toNat) && decide (c.toNat ≤ 122)) ||
  (decide (65 ≤ c.toNat) && decide (c.toNat ≤ 90)) ||
  (decide (48 ≤ c.toNat) && decide (c.toNat ≤ 57)) ||
  c == '_'

/-- Python's `\s` restricted to ASCII: space, TAB, LF, VT, FF, CR and
the separator controls U+001C through U+001F. -/
def asciiSpace (c : Char) : Bool :=
  c == ' ' || (decide (9 ≤ c.toNat) && decide (c.toNat ≤ 13)) ||
  (decide (28 ≤ c.toNat) && decide (c.toNat ≤ 31))

/-- Python's `str.lower` restricted to ASCII: map `A`-`Z` to
`a`-`z`, everything else unchanged. -/
def asciiLower (c : Char) : Char :=
  if 65 ≤ c.toNat ∧ c.toNat ≤ 90 then Char.ofNat (c.toNat + 32) else c

/-- The `CharClass` instance agreeing with Python's `\w`, `\s` and
`str.lower` on every ASCII code point. -/
def asciiCC : CharClass where
  isWord := asciiWord
  isSpace := asciiSpace
  lower := asciiLower
  lower_idem := by
    have hval : ∀ m, m < 123 → (Char.ofNat m).toNat = m := by decide
    intro c
    unfold asciiLower
    by_cases h : 65 ≤ c.toNat ∧ c.toNat ≤ 90
    · rw [if_pos h]
      have h1 : (Char.ofNat (c.toNat + 32)).toNat = c.toNat + 32 :=
        hval (c.toNat + 32) (by omega)
      rw [if_neg (by rw [h1]; omega)]
    · rw [if_neg h, if_neg h]
  lower_dash := by decide
  word_hash := by decide
  word_emoji := by
    intro c h
    have hle : c.toNat ≤ 122 := by
      simp only [asciiWord, Bool.or_eq_true, Bool.and_eq_true, decide_eq_true_eq,
        beq_iff_eq] at h
      rcases h with ((h | h) | h) | h
      · exact h.2
      · omega
      · omega
      · subst h; decide
    have hne : ¬ isEmojiChar c = true := by
      simp only [isEmojiChar, Bool.or_eq_true, Bool.and_eq_true, decide_eq_true_eq]
      omega
    exact Bool.eq_false_iff.mpr hne

/-- Fuel-indexed worker for Python's `str.replace` with a non-empty
pattern: scan left to right, at each position replace the leftmost
match and resume after the inserted replacement.  The fuel is the
length of the scanned string, so the zero-fuel fallback is never
reached by `pyReplace`. -/
def replaceAllAux (old new : List Char) : Nat → List Char → List Char
  | _, [] => []
  | 0, c :: rest => c :: rest
  | fuel + 1, c :: rest =>
    if old.isPrefixOf (c :: rest) then
      new ++ replaceAllAux old new fuel (rest.drop (old.length - 1))
    else c :: replaceAllAux old new fuel rest

/-- Python's `content.replace(old, new)`: replace every non-overlapping
occurrence of `old`, leftmost first.  An empty `old` inserts `new`
into every gap, including both ends, as Python does. -/
def pyReplace (old new s : List Char) : List Char :=
  if old = [] then new ++ s.flatMap (fun c => c :: new)
  else replaceAllAux old new s.length s

/-- The stale link of the ENTERPRISE_GUIDE.md fix shared by
fix-links.py line 24 and fix-anchors-auto.py line 94. -/
def oldAnchor : List Char := "(#monitoring--alerting)".toList

/-- Its hand-authored correction. -/
def newAnchor : List Char := "(#monitoring-alerting)".toList

/-- Python's substring test `pat in s`: some position of `s` starts
an occurrence of `pat` (true for an empty `pat`, as in Python). -/
def containsSub (pat : List Char) : List Char → Bool
  | [] => pat.isEmpty
  | c :: rest => pat.isPrefixOf (c :: rest) || containsSub pat rest

/-- One rule application as `fix_markdown_file` performs it: replace
all occurrences of the stale link, but only when the stale link
occurs in the current content (fix-anchors-auto.py lines 23-27). -/
def specStep (content : List Char) (rule : List Char × List Char) : List Char :=
  if containsSub rule.1 content then pyReplace rule.1 rule.2 content else content

/-- The rule loop of `fix_markdown_file`: fold the rules in list
order over the evolving content, counting the rules whose stale link
was found (fix-anchors-auto.py lines 19-27). -/
def applyFixes : List (List Char × List Char) → List Char → List Char × Nat
  | [], content => (content, 0)
  | rule :: rest, content =>
    if containsSub rule.1 content then
      ((applyFixes rest (pyReplace rule.1 rule.2 content)).1,
       (applyFixes rest (pyReplace rule.1 rule.2 content)).2 + 1)
    else applyFixes rest content

/-- `fix_markdown_file` (fix-anchors-auto.py lines 9-36).  The file
system is a map from filename to optional content; a missing file
returns `False` at once, and the file is rewritten exactly when at
least one rule matched. -/
def fix_markdown_file (fs : String → Option (List Char)) (filepath : String)
    (fixes : List (List Char × List Char)) : (String → Option (List Char)) × Bool :=
  match fs filepath with
  | none => (fs, false)
  | some content =>
    if 0 < (applyFixes fixes content).2 then
      (fun p => if p = filepath then some (applyFixes fixes content).1 else fs p, true)
    else (fs, false)

/-- The loop of `main` in fix-anchors-auto.py (lines 131-136): apply
`fix_markdown_file` to each (filename, rules) pair in order, counting
the files reported as changed. -/
def processFiles : (String → Option (List Char)) →
    List (String × List (List Char × List Char)) → (String → Option (List Char)) × Nat
  | fs, [] => (fs, 0)
  | fs, (p, fx) :: rest =>
    ((processFiles (fix_markdown_file fs p fx).1 rest).1,
     (processFiles (fix_markdown_file fs p fx).1 rest).2 +
       (if (fix_markdown_file fs p fx).2 then 1 else 0))

/-- The character set that claim C1 asserts for slug characters after
the leading `#`: lowercase ASCII letters, digits and hyphens. -/
def claimedSlugChar (c : Char) : Bool :=
  (decide ('a' ≤ c) && decide (c ≤ 'z')) ||
  (decide ('0' ≤ c) && decide (c ≤ '9')) || c == '-'

example : create_github_anchor asciiCC ("## Monitoring & Alerting".toList) =
    "#monitoring-alerting".toList := by decide

example : create_github_anchor asciiCC ("## 🚀 Quick Start".toList) =
    "#quick-start".toList := by decide

example : create_github_anchor asciiCC ("## foo_bar".toList) =
    "#foo_bar".toList := by decide

example : create_github_anchor asciiCC ("## 🎉🎉".toList) = ['#'] := by decide

example : pyReplace "ab".toList "b".toList "aab".toList = "ab".toList := by decide

example : pyReplace [] "X".toList "ab".toList = "XaXbX".toList := by decide

example : pyReplace oldAnchor newAnchor "x (#monitoring--alerting) y".toList =
    "x (#monitoring-alerting) y".toList := by decide

example : applyFixes [("b".toList, "c".toList), ("ca".toList, "d".toList)]
    "ba".toList = ("d".toList, 2) := by decide

theorem dropWhile_eq_self_of_head {p : Char → Bool} {l : List Char}
    (h : ∀ c ∈ l.head?, p c = false) : l.dropWhile p = l := by
  cases l with
  | nil => rfl
  | cons c rest =>
    have hc : p c = false := h c rfl
    simp [List.dropWhile_cons, hc]

theorem head?_dropWhile_not {p : Char → Bool} {l : List Char} {a : Char}
    (h : (l.dropWhile p).head? = some a) : p a = false := by
  induction l with
  | nil => simp at h
  | cons c rest ih =>
    rw [List.dropWhile_cons] at h
    by_cases hc : p c
    · rw [if_pos hc] at h; exact ih h
    · rw [if_neg hc] at h
      rw [List.head?_cons, Option.some.injEq] at h
      subst h
      exact Bool.eq_false_iff.mpr hc

theorem getLast?_of_suffix {l₁ l₂ : List Char} (h : l₁ <:+ l₂) (hne : l₁ ≠ []) :
    l₁.getLast? = l₂.getLast? := by
  obtain ⟨w, rfl⟩ := h
  exact (List.getLast?_append_of_ne_nil w hne).symm

theorem map_id_of_mem {f : Char → Char} :
    ∀ {l : List Char}, (∀ c ∈ l, f c = c) → l.map f = l
  | [], _ => rfl
  | c :: rest, h => by
    rw [List.map_cons, h c (List.mem_cons_self c rest),
      map_id_of_mem (fun a ha => h a (List.mem_cons_of_mem c ha))]

theorem containsSub_iff {pat s : List Char} : containsSub pat s = true ↔ pat <:+: s := by
  induction s with
  | nil =>
    simp only [containsSub, List.isEmpty_iff, List.infix_nil]
  | cons c rest ih =>
    simp only [containsSub, Bool.or_eq_true, List.isPrefixOf_iff_prefix, ih,
      List.infix_cons_iff]

theorem infix_iff_drops {u s : List Char} : u <:+: s ↔ ∃ k, u <+: s.drop k := by
  constructor
  · rintro ⟨p, q, rfl⟩
    refine ⟨p.length, ?_⟩
    rw [List.append_assoc, List.drop_left]
    exact List.prefix_append u q
  · rintro ⟨k, q, hq⟩
    refine ⟨s.take k, q, ?_⟩
    rw [List.append_assoc, hq, List.take_append_drop]

theorem mem_collapseAux {cc : CharClass} {c : Char} {l : List Char} :
    ∀ {b : Bool}, c ∈ collapseAux cc b l → c = '-' ∨ (c ∈ l ∧ isDash cc c = false) := by
  induction l with
  | nil => intro b h; simp [collapseAux] at h
  | cons x rest ih =>
    intro b h
    rw [collapseAux] at h
    by_cases hx : isDash cc x = true
    · rw [if_pos hx] at h
      cases b with
      | true =>
        rcases ih h with h1 | ⟨h1, h2⟩
        · exact Or.inl h1
        · exact Or.inr ⟨List.mem_cons_of_mem x h1, h2⟩
      | false =>
        rcases List.mem_cons.mp h with h1 | h1
        · exact Or.inl h1
        · rcases ih h1 with h2 | ⟨h2, h3⟩
          · exact Or.inl h2
          · exact Or.inr ⟨List.mem_cons_of_mem x h2, h3⟩
    · rw [if_neg hx] at h
      rcases List.mem_cons.mp h with h1 | h1
      · subst h1; exact Or.inr ⟨List.mem_cons_self c rest, Bool.eq_false_iff.mpr hx⟩
      · rcases ih h1 with h2 | ⟨h2, h3⟩
        · exact Or.inl h2
        · exact Or.inr ⟨List.mem_cons_of_mem x h2, h3⟩

theorem head?_collapseAux_true {cc : CharClass} {l : List Char} {a : Char}
    (h : (collapseAux cc true l).head? = some a) : isDash cc a = false := by
  induction l with
  | nil => simp [collapseAux] at h
  | cons x rest ih =>
    rw [collapseAux] at h
    by_cases hx : isDash cc x = true
    · rw [if_pos hx, if_pos rfl] at h
      exact ih h
    · rw [if_neg hx] at h
      rw [List.head?_cons, Option.some.injEq] at h
      subst h
      exact Bool.eq_false_iff.mpr hx

theorem chain'_collapseAux {cc : CharClass} {l : List Char} :
    ∀ b, List.Chain' (fun x y => isDash cc x = false ∨ isDash cc y = false)
      (collapseAux cc b l) := by
  induction l with
  | nil => intro b; simp [collapseAux]
  | cons x rest ih =>
    intro b
    rw [collapseAux]
    by_cases hx : isDash cc x = true
    · rw [if_pos hx]
      cases b with
      | true => exact ih true
      | false =>
        rw [if_neg (by simp)]
        refine List.chain'_cons'.mpr ⟨?_, ih true⟩
        intro y hy
        exact Or.inr (head?_collapseAux_true hy)
    · rw [if_neg hx]
      refine List.chain'_cons'.mpr ⟨?_, ih false⟩
      intro y hy
      exact Or.inl (Bool.eq_false_iff.mpr hx)

theorem collapseAux_true_eq {cc : CharClass} {l : List Char}
    (h : ∀ a ∈ l.head?, isDash cc a = false) :
    collapseAux cc true l = collapseAux cc false l := by
  cases l with
  | nil => rfl
  | cons x rest =>
    have hx : isDash cc x = false := h x rfl
    rw [collapseAux, collapseAux, if_neg (by simp [hx]), if_neg (by simp [hx])]

theorem collapseAux_eq_self {cc : CharClass} {l : List Char}
    (hchain : List.Chain' (fun x y => isDash cc x = false ∨ isDash cc y = false) l)
    (hmem : ∀ c ∈ l, c = '-' ∨ isDash cc c = false) :
    collapseAux cc false l = l := by
  induction l with
  | nil => rfl
  | cons x rest ih =>
    have htail : List.Chain'
        (fun a y => isDash cc a = false ∨ isDash cc y = false) rest :=
      (List.chain'_cons'.mp hchain).2
    have hmemtail : ∀ c ∈ rest, c = '-' ∨ isDash cc c = false :=
      fun c hc => hmem c (List.mem_cons_of_mem x hc)
    by_cases hx : isDash cc x = true
    · have hhd : ∀ a ∈ rest.head?, isDash cc a = false := by
        intro a ha
        rcases (List.chain'_cons'.mp hchain).1 a ha with h | h
        · rw [hx] at h; cases h
        · exact h
      rw [collapseAux, if_pos hx, if_neg (by simp)]
      rw [collapseAux_true_eq hhd, ih htail hmemtail]
      rcases hmem x (List.mem_cons_self x rest) with h | h
      · rw [h]
      · rw [h] at hx; cases hx
    · rw [collapseAux, if_neg hx, ih htail hmemtail]

theorem infix_stripDashes (l : List Char) : stripDashes l <:+: l := by
  have h1 : l.dropWhile (fun c => c == '-') <:+ l := List.dropWhile_suffix _
  have h2 : ((l.dropWhile (fun c => c == '-')).reverse.dropWhile (fun c => c == '-')) <:+
      (l.dropWhile (fun c => c == '-')).reverse := List.dropWhile_suffix _
  have h3 := List.reverse_prefix.mpr h2
  rw [List.reverse_reverse] at h3
  exact h3.isInfix.trans h1.isInfix

theorem mem_stripDashes {l : List Char} {c : Char} (h : c ∈ stripDashes l) : c ∈ l :=
  (infix_stripDashes l).sublist.subset h

theorem head?_stripDashes {l : List Char} {a : Char}
    (h : (stripDashes l).head? = some a) : (a == '-') = false := by
  unfold stripDashes at h
  rw [List.head?_reverse] at h
  have hw : ((l.dropWhile (fun c => c == '-')).reverse.dropWhile (fun c => c == '-')) <:+
      (l.dropWhile (fun c => c == '-')).reverse := List.dropWhile_suffix _
  have hne : ((l.dropWhile (fun c => c == '-')).reverse.dropWhile (fun c => c == '-')) ≠ [] := by
    intro he
    rw [he] at h
    simp at h
  rw [getLast?_of_suffix hw hne] at h
  rw [← List.head?_reverse, List.reverse_reverse] at h
  exact @head?_dropWhile_not (fun c => c == '-') _ a h

theorem getLast?_stripDashes {l : List Char} {a : Char}
    (h : (stripDashes l).getLast? = some a) : (a == '-') = false := by
  unfold stripDashes at h
  rw [← List.head?_reverse, List.reverse_reverse] at h
  exact @head?_dropWhile_not (fun c => c == '-') _ a h

theorem stripDashes_eq_self {l : List Char}
    (h1 : ∀ a ∈ l.head?, (a == '-') = false)
    (h2 : ∀ a ∈ l.getLast?, (a == '-') = false) : stripDashes l = l := by
  unfold stripDashes
  rw [dropWhile_eq_self_of_head h1]
  rw [dropWhile_eq_self_of_head (by
    intro a ha
    rw [List.head?_reverse] at ha
    exact h2 a ha)]
  exact List.reverse_reverse l

theorem slug_mem {cc : CharClass} {s : List Char} {c : Char}
    (h : c ∈ slugCore cc s) :
    c = '-' ∨ (cc.isWord c = true ∧ cc.isSpace c = false ∧ isEmojiChar c = false ∧
      cc.lower c = c ∧ c ≠ '#' ∧ isDash cc c = false) := by
  have hG : c ∈ collapseRuns cc
      (((remove_emojis (stripHeader cc s)).map cc.lower).filter (keepChar cc)) :=
    mem_stripDashes h
  rcases mem_collapseAux hG with h1 | ⟨h1, h2⟩
  · exact Or.inl h1
  · right
    have hkeep : keepChar cc c = true := (List.mem_filter.mp h1).2
    have hmap : c ∈ (remove_emojis (stripHeader cc s)).map cc.lower :=
      (List.mem_filter.mp h1).1
    have hdash : (c == '-') = false ∧ cc.isSpace c = false := by
      unfold isDash at h2
      exact ⟨(Bool.or_eq_false_iff.mp h2).1, (Bool.or_eq_false_iff.mp h2).2⟩
    have hword : cc.isWord c = true := by
      unfold keepChar at hkeep
      rcases Bool.or_eq_true_iff.mp hkeep with h3 | h3
      · rcases Bool.or_eq_true_iff.mp h3 with h4 | h4
        · exact h4
        · rw [hdash.2] at h4; cases h4
      · rw [hdash.1] at h3; cases h3
    have hlow : cc.lower c = c := by
      rcases List.mem_map.mp hmap with ⟨c0, _, hc0⟩
      rw [← hc0, cc.lower_idem]
    refine ⟨hword, hdash.2, cc.word_emoji c hword, hlow, ?_, h2⟩
    intro hch
    rw [hch] at hword
    rw [cc.word_hash] at hword
    cases hword

theorem slug_chain {cc : CharClass} (s : List Char) :
    List.Chain' (fun x y => isDash cc x = false ∨ isDash cc y = false)
      (slugCore cc s) :=
  List.Chain'.infix (chain'_collapseAux false) (infix_stripDashes _)

theorem slug_head {cc : CharClass} {s : List Char} {a : Char}
    (h : (slugCore cc s).head? = some a) : (a == '-') = false :=
  head?_stripDashes h

theorem slug_getLast {cc : CharClass} {s : List Char} {a : Char}
    (h : (slugCore cc s).getLast? = some a) : (a == '-') = false :=
  getLast?_stripDashes h

/-- C1, counterexample: on the input `## foo_bar` the generator keeps
the underscore, which is not a lowercase ASCII letter, a digit or a
hyphen, so the claimed character-set invariant fails. -/
theorem claim1_counterexample :
    create_github_anchor asciiCC ("## foo_bar".toList) = '#' :: "foo_bar".toList ∧
    '_' ∈ "foo_bar".toList ∧ claimedSlugChar '_' = false := by
  refine ⟨?_, ?_, ?_⟩ <;> decide

/-- C1 (amended): for every string input the output of
`create_github_anchor` starts with `#`, every remaining character is
a word character (as classified by the regex class `\w`) or a
hyphen, and it has no leading hyphen, no trailing hyphen and no two
consecutive hyphens. -/
theorem claim1_amended_charset (cc : CharClass) (s : List Char) :
    create_github_anchor cc s = '#' :: slugCore cc s ∧
    (∀ c ∈ slugCore cc s, cc.isWord c = true ∨ c = '-') ∧
    (∀ c ∈ (slugCore cc s).head?, c ≠ '-') ∧
    (∀ c ∈ (slugCore cc s).getLast?, c ≠ '-') ∧
    ¬ ['-', '-'] <:+: slugCore cc s := by
  refine ⟨rfl, ?_, ?_, ?_, ?_⟩
  · intro c hc
    rcases slug_mem hc with h | h
    · exact Or.inr h
    · exact Or.inl h.1
  · intro c hc
    have := slug_head (Option.mem_def.mp hc)
    simpa using this
  · intro c hc
    have := slug_getLast (Option.mem_def.mp hc)
    simpa using this
  · intro hdd
    have hch := List.Chain'.infix (@slug_chain cc s) hdd
    rcases (List.chain'_cons.mp hch).1 with h | h <;> simp [isDash] at h

/-- C2: the slug generator is idempotent — applying it to its own
output reproduces that output exactly. -/
theorem claim2_idempotent (cc : CharClass) (s : List Char) :
    create_github_anchor cc (create_github_anchor cc s) = create_github_anchor cc s := by
  have hhd : ∀ a ∈ (slugCore cc s).head?, a ≠ '-' ∧ cc.isWord a = true ∧
      cc.isSpace a = false ∧ a ≠ '#' := by
    intro a ha
    have hne : (a == '-') = false := slug_head (Option.mem_def.mp ha)
    rcases slug_mem (List.mem_of_mem_head? ha) with h | h
    · rw [h] at hne; simp at hne
    · exact ⟨by simpa using hne, h.1, h.2.1, h.2.2.2.2.1⟩
  have e1 : (slugCore cc s).dropWhile (fun d => d == '#') = slugCore cc s :=
    dropWhile_eq_self_of_head (by
      intro a ha
      have h4 := (hhd a ha).2.2.2
      simpa using h4)
  have e2 : (slugCore cc s).dropWhile cc.isSpace = slugCore cc s :=
    dropWhile_eq_self_of_head (fun a ha => (hhd a ha).2.2.1)
  have h1 : stripHeader cc ('#' :: slugCore cc s) = slugCore cc s := by
    show (if '#' = '#' then
        (((slugCore cc s).dropWhile (fun d => d == '#')).dropWhile cc.isSpace)
      else '#' :: slugCore cc s) = slugCore cc s
    rw [if_pos rfl, e1, e2]
  have h2 : remove_emojis (slugCore cc s) = slugCore cc s :=
    List.filter_eq_self.mpr (by
      intro c hcm
      rcases slug_mem hcm with h | h
      · subst h; decide
      · simp [h.2.2.1])
  have h3 : (slugCore cc s).map cc.lower = slugCore cc s :=
    map_id_of_mem (by
      intro c hcm
      rcases slug_mem hcm with h | h
      · rw [h]; exact cc.lower_dash
      · exact h.2.2.2.1)
  have h4 : (slugCore cc s).filter (keepChar cc) = slugCore cc s :=
    List.filter_eq_self.mpr (by
      intro c hcm
      rcases slug_mem hcm with h | h
      · subst h; simp [keepChar]
      · simp [keepChar, h.1])
  have h5 : collapseRuns cc (slugCore cc s) = slugCore cc s := by
    unfold collapseRuns
    refine collapseAux_eq_self (slug_chain s) ?_
    intro c hcm
    rcases slug_mem hcm with h | h
    · exact Or.inl h
    · exact Or.inr h.2.2.2.2.2
  have h6 : stripDashes (slugCore cc s) = slugCore cc s :=
    stripDashes_eq_self
      (fun a ha => slug_head (Option.mem_def.mp ha))
      (fun a ha => slug_getLast (Option.mem_def.mp ha))
  have key : slugCore cc ('#' :: slugCore cc s) = slugCore cc s := by
    show stripDashes (collapseRuns cc
      (((remove_emojis (stripHeader cc ('#' :: slugCore cc s))).map cc.lower).filter
        (keepChar cc))) = slugCore cc s
    rw [h1, h2, h3, h4, h5, h6]
  show '#' :: slugCore cc ('#' :: slugCore cc s) = '#' :: slugCore cc s
  rw [key]

/-- C3: the slug generator is total — on every string input it is
defined and returns a string, namely `#` followed by the slug body;
every step of the embedded pipeline is a total function. -/
theorem claim3_total (cc : CharClass) (s : List Char) :
    ∃ t : List Char, create_github_anchor cc s = '#' :: t :=
  ⟨slugCore cc s, rfl⟩

/-- C5: on `## Monitoring & Alerting` the generator returns
`#monitoring-alerting` (the ampersand is deleted outright and the
whitespace run collapses to one hyphen), not `#monitoring--alerting`. -/
theorem claim5_ampersand :
    create_github_anchor asciiCC ("## Monitoring & Alerting".toList) =
      "#monitoring-alerting".toList ∧
    create_github_anchor asciiCC ("## Monitoring & Alerting".toList) ≠
      "#monitoring--alerting".toList := by
  refine ⟨?_, ?_⟩ <;> decide

/-- C6: a header line whose title consists only of characters of the
emoji ranges produces the bare anchor `#`, and in general whenever
the title is empty after all stripping steps the result is `#`. -/
theorem claim6_emoji_only_header :
    (∀ (cc : CharClass) (n : Nat) (sp title : List Char), 0 < n →
      (∀ c ∈ sp, cc.isSpace c = true ∧ c ≠ '#') →
      (∀ c ∈ title, isEmojiChar c = true ∧ cc.isSpace c = false) →
      create_github_anchor cc (List.replicate n '#' ++ sp ++ title) = ['#']) ∧
    (∀ (cc : CharClass) (s : List Char), slugCore cc s = [] →
      create_github_anchor cc s = ['#']) := by
  constructor
  · intro cc n sp title hn hsp htitle
    obtain ⟨m, rfl⟩ : ∃ m, n = m + 1 := ⟨n - 1, by omega⟩
    have hne : ∀ c ∈ sp ++ title, c ≠ '#' := by
      intro c hc
      rcases List.mem_append.mp hc with h | h
      · exact (hsp c h).2
      · intro he
        have h1 := (htitle c h).1
        rw [he] at h1
        have h2 : isEmojiChar '#' = false := by decide
        rw [h2] at h1
        cases h1
    have hd1 : (List.replicate m '#' ++ (sp ++ title)).dropWhile (fun d => d == '#') =
        sp ++ title := by
      rw [List.dropWhile_append_of_pos (by
        intro a ha
        rw [List.eq_of_mem_replicate ha]
        rfl)]
      exact dropWhile_eq_self_of_head (by
        intro c hc
        have := hne c (List.mem_of_mem_head? hc)
        simpa using this)
    have hd2 : (sp ++ title).dropWhile cc.isSpace = title := by
      rw [List.dropWhile_append_of_pos (fun a ha => (hsp a ha).1)]
      exact dropWhile_eq_self_of_head (by
        intro c hc
        have := (htitle c (List.mem_of_mem_head? hc)).2
        simp [this])
    have hstrip : stripHeader cc (List.replicate (m + 1) '#' ++ sp ++ title) = title := by
      rw [List.replicate_succ, List.append_assoc, List.cons_append]
      show (if '#' = '#' then
          (((List.replicate m '#' ++ (sp ++ title)).dropWhile
            (fun d => d == '#')).dropWhile cc.isSpace)
        else '#' :: (List.replicate m '#' ++ (sp ++ title))) = title
      rw [if_pos rfl, hd1, hd2]
    have hemoji : remove_emojis title = [] :=
      List.filter_eq_nil_iff.mpr (by
        intro a ha
        simp [(htitle a ha).1])
    show '#' :: slugCore cc _ = ['#']
    have hslug : slugCore cc (List.replicate (m + 1) '#' ++ sp ++ title) = [] := by
      show stripDashes (collapseRuns cc
        (((remove_emojis (stripHeader cc (List.replicate (m + 1) '#' ++ sp ++ title))).map
          cc.lower).filter (keepChar cc))) = []
      rw [hstrip, hemoji]
      rfl
    rw [hslug]
  · intro cc s h
    show '#' :: slugCore cc s = ['#']
    rw [h]

/-- C6, witness: the spec's concrete example `## 🎉🎉` and the bare
header `##` both produce `#`. -/
theorem claim6_emoji_only_header_witness :
    create_github_anchor asciiCC ("## 🎉🎉".toList) = ['#'] ∧
    create_github_anchor asciiCC ("##".toList) = ['#'] := by
  constructor
  · have h := claim6_emoji_only_header.1 asciiCC 2 [' '] ['🎉', '🎉']
      (by decide) (by decide) (by decide)
    have he : "## 🎉🎉".toList = List.replicate 2 '#' ++ [' '] ++ ['🎉', '🎉'] := by
      decide
    rw [he]
    exact h
  · exact claim6_emoji_only_header.2 asciiCC ("##".toList) (by decide)

theorem replaceAllAux_contains_new {old new : List Char} (hold : old ≠ []) :
    ∀ fuel, ∀ s : List Char, s.length ≤ fuel → old <:+: s →
      new <:+: replaceAllAux old new fuel s := by
  intro fuel
  induction fuel with
  | zero =>
    intro s hl hs
    have h0 : s = [] := List.length_eq_zero.mp (Nat.le_zero.mp hl)
    subst h0
    exact absurd (List.infix_nil.mp hs) hold
  | succ fuel ih =>
    intro s hl hs
    cases s with
    | nil => exact absurd (List.infix_nil.mp hs) hold
    | cons c rest =>
      have hlr : rest.length ≤ fuel := by
        simp only [List.length_cons] at hl
        omega
      simp only [replaceAllAux]
      by_cases hp : old.isPrefixOf (c :: rest) = true
      · rw [if_pos hp]
        exact (List.prefix_append new _).isInfix
      · rw [if_neg hp]
        have hs' : old <:+: rest := by
          rcases List.infix_cons_iff.mp hs with h | h
          · exact absurd (List.isPrefixOf_iff_prefix.mpr h) hp
          · exact h
        exact List.infix_cons_iff.mpr (Or.inr (ih rest hlr hs'))

theorem replaceAllAux_no_old {old new : List Char} (hold : old ≠ [])
    (hA : ∀ k, k < new.length → ¬ (new.drop k <+: old) ∧ ¬ (old <+: new.drop k))
    (hB : ∀ j, j < old.length → 0 < j → ¬ (old.drop j <+: new) ∧ ¬ (new <+: old.drop j)) :
    ∀ fuel, ∀ s : List Char, s.length ≤ fuel →
      (¬ old <:+: replaceAllAux old new fuel s) ∧
      (∀ j, 0 < j → j < old.length → old.drop j <+: replaceAllAux old new fuel s →
        old.drop j <+: s) := by
  intro fuel
  induction fuel with
  | zero =>
    intro s hl
    have h0 : s = [] := List.length_eq_zero.mp (Nat.le_zero.mp hl)
    subst h0
    simp only [replaceAllAux]
    constructor
    · intro h; exact hold (List.infix_nil.mp h)
    · intro j hj hjl h
      have hlen := congrArg List.length (List.prefix_nil.mp h)
      rw [List.length_drop] at hlen
      simp only [List.length_nil] at hlen
      omega
  | succ fuel ih =>
    intro s hl
    cases s with
    | nil =>
      simp only [replaceAllAux]
      constructor
      · intro h; exact hold (List.infix_nil.mp h)
      · intro j hj hjl h
        have hlen := congrArg List.length (List.prefix_nil.mp h)
        rw [List.length_drop] at hlen
        simp only [List.length_nil] at hlen
        omega
    | cons c rest =>
      have hlr : rest.length ≤ fuel := by
        simp only [List.length_cons] at hl
        omega
      simp only [replaceAllAux]
      by_cases hp : old.isPrefixOf (c :: rest) = true
      · rw [if_pos hp]
        have hpre : old <+: c :: rest := List.isPrefixOf_iff_prefix.mp hp
        obtain ⟨t', ht'⟩ := hpre
        have hol : 0 < old.length := List.length_pos.mpr hold
        have htdrop : rest.drop (old.length - 1) = t' := by
          have h0 : (old ++ t').drop old.length = t' := List.drop_left old t'
          rw [ht'] at h0
          have h1 : old.length = (old.length - 1) + 1 := by omega
          rw [h1, List.drop_succ_cons] at h0
          exact h0
        have htlen : (rest.drop (old.length - 1)).length ≤ fuel := by
          rw [htdrop]
          have hlenapp := congrArg List.length ht'
          simp only [List.length_append, List.length_cons] at hlenapp
          omega
        have IH := ih (rest.drop (old.length - 1)) htlen
        constructor
        · intro hocc
          rcases infix_iff_drops.mp hocc with ⟨k, hk⟩
          by_cases hklt : k < new.length
          · have hdk : (new ++ replaceAllAux old new fuel (rest.drop (old.length - 1))).drop k =
                new.drop k ++ replaceAllAux old new fuel (rest.drop (old.length - 1)) := by
              rw [List.drop_append_eq_append_drop,
                Nat.sub_eq_zero_of_le (Nat.le_of_lt hklt), List.drop_zero]
            rw [hdk] at hk
            rcases List.prefix_or_prefix_of_prefix hk (List.prefix_append (new.drop k) _)
              with h | h
            · exact (hA k hklt).2 h
            · exact (hA k hklt).1 h
          · push_neg at hklt
            have hdk : (new ++ replaceAllAux old new fuel (rest.drop (old.length - 1))).drop k =
                (replaceAllAux old new fuel (rest.drop (old.length - 1))).drop
                  (k - new.length) := by
              rw [List.drop_append_eq_append_drop, List.drop_eq_nil_of_le hklt,
                List.nil_append]
            rw [hdk] at hk
            exact IH.1 (infix_iff_drops.mpr ⟨k - new.length, hk⟩)
        · intro j hj hjl hpref
          rcases List.prefix_or_prefix_of_prefix hpref (List.prefix_append new _)
            with h | h
          · exact absurd h (hB j hjl hj).1
          · exact absurd h (hB j hjl hj).2
      · rw [if_neg hp]
        have IH := ih rest hlr
        have hnp : ¬ old <+: c :: rest := fun h => hp (List.isPrefixOf_iff_prefix.mpr h)
        constructor
        · intro hocc
          rcases infix_iff_drops.mp hocc with ⟨k, hk⟩
          cases k with
          | zero =>
            rw [List.drop_zero] at hk
            obtain ⟨o, o', ho⟩ := List.exists_cons_of_ne_nil hold
            rw [ho, List.cons_prefix_cons] at hk
            obtain ⟨hoc, hk2⟩ := hk
            rw [← ho] at hk2
            by_cases h0 : o' = []
            · subst h0
              exact hnp (by rw [ho, hoc]; exact List.cons_prefix_cons.mpr ⟨rfl, List.nil_prefix⟩)
            · have hjl1 : 1 < old.length := by
                have := List.length_pos.mpr h0
                rw [ho]
                simp only [List.length_cons]
                omega
              have hd1 : old.drop 1 = o' := by rw [ho, List.drop_succ_cons, List.drop_zero]
              have := IH.2 1 Nat.one_pos hjl1 (by rw [hd1]; exact hk2)
              rw [hd1] at this
              exact hnp (by rw [ho, hoc]; exact List.cons_prefix_cons.mpr ⟨rfl, this⟩)
          | succ k' =>
            rw [List.drop_succ_cons] at hk
            exact IH.1 (infix_iff_drops.mpr ⟨k', hk⟩)
        · intro j hj hjl hpref
          have hdj : old.drop j = old[j] :: old.drop (j + 1) :=
            List.drop_eq_getElem_cons hjl
          rw [hdj, List.cons_prefix_cons] at hpref
          obtain ⟨hc, hpref2⟩ := hpref
          by_cases hend : j + 1 < old.length
          · have := IH.2 (j + 1) (by omega) hend hpref2
            rw [hdj, hc]
            exact List.cons_prefix_cons.mpr ⟨rfl, this⟩
          · have hdrop : old.drop (j + 1) = [] := List.drop_eq_nil_of_le (by omega)
            rw [hdj, hc, hdrop]
            exact List.cons_prefix_cons.mpr ⟨rfl, List.nil_prefix⟩

/-- C4: in any document containing the stale double-hyphen anchor
`(#monitoring--alerting)`, replacing it by `(#monitoring-alerting)`
leaves a document that contains the corrected anchor and no
occurrence of the stale one. -/
theorem claim4_replacement_scenario (s : List Char) (h : oldAnchor <:+: s) :
    newAnchor <:+: pyReplace oldAnchor newAnchor s ∧
    ¬ oldAnchor <:+: pyReplace oldAnchor newAnchor s := by
  have hold : oldAnchor ≠ [] := by decide
  rw [pyReplace, if_neg hold]
  refine ⟨replaceAllAux_contains_new hold s.length s Nat.le.refl h, ?_⟩
  exact (replaceAllAux_no_old hold (by decide) (by decide) s.length s Nat.le.refl).1

/-- C4, witness: the scenario at a concrete document. -/
theorem claim4_replacement_scenario_witness :
    oldAnchor <:+: "See (#monitoring--alerting) here.".toList ∧
    newAnchor <:+: pyReplace oldAnchor newAnchor "See (#monitoring--alerting) here.".toList ∧
    ¬ oldAnchor <:+: pyReplace oldAnchor newAnchor "See (#monitoring--alerting) here.".toList := by
  have h : oldAnchor <:+: "See (#monitoring--alerting) here.".toList :=
    containsSub_iff.mp (by decide)
  exact ⟨h, (claim4_replacement_scenario _ h).1, (claim4_replacement_scenario _ h).2⟩

example : ¬ ("ab".toList <:+: "xy".toList) := by decide

theorem applyFixes_no_match {content : List Char} :
    ∀ {fixes : List (List Char × List Char)},
      (∀ r ∈ fixes, containsSub r.1 content = false) →
      applyFixes fixes content = (content, 0) := by
  intro fixes
  induction fixes with
  | nil => intro _; rfl
  | cons rule rest ih =>
    intro h
    have hr : containsSub rule.1 content = false := h rule (List.mem_cons_self _ _)
    simp only [applyFixes, hr, Bool.false_eq_true, if_false]
    exact ih (fun r hrm => h r (List.mem_cons_of_mem _ hrm))

theorem fix_markdown_file_some {fs : String → Option (List Char)} {path : String}
    {content : List Char} (fixes : List (List Char × List Char))
    (h : fs path = some content) :
    fix_markdown_file fs path fixes =
      if 0 < (applyFixes fixes content).2 then
        (fun p => if p = path then some (applyFixes fixes content).1 else fs p, true)
      else (fs, false) := by
  unfold fix_markdown_file
  rw [h]

/-- C7: `fix_markdown_file` writes the file only when at least one
replacement occurred — if no rule's stale link occurs in the content,
the file system is unchanged and the function returns `False`. -/
theorem claim7_no_write_without_match (fs : String → Option (List Char)) (path : String)
    (content : List Char) (fixes : List (List Char × List Char))
    (hfs : fs path = some content)
    (hno : ∀ r ∈ fixes, ¬ r.1 <:+: content) :
    fix_markdown_file fs path fixes = (fs, false) := by
  have hb : ∀ r ∈ fixes, containsSub r.1 content = false := fun r hr =>
    Bool.eq_false_iff.mpr (fun ht => hno r hr (containsSub_iff.mp ht))
  rw [fix_markdown_file_some fixes hfs, applyFixes_no_match hb]
  simp

/-- C7, witness: a file whose content matches no rule is left alone. -/
theorem claim7_no_write_without_match_witness :
    fix_markdown_file (fun p => if p = "README.md" then some ("hello".toList) else none)
      "README.md" [("xyz".toList, "ab".toList)] =
    ((fun p => if p = "README.md" then some ("hello".toList) else none), false) :=
  claim7_no_write_without_match _ _ ("hello".toList) _ (by decide) (by decide)

/-- C8: a missing file is a non-fatal skip — `fix_markdown_file`
returns `False` without writing, and the main loop's result on the
remaining files is unchanged. -/
theorem claim8_missing_file_skipped (fs : String → Option (List Char)) (path : String)
    (fixes : List (List Char × List Char))
    (rest : List (String × List (List Char × List Char)))
    (h : fs path = none) :
    fix_markdown_file fs path fixes = (fs, false) ∧
    processFiles fs ((path, fixes) :: rest) = processFiles fs rest := by
  have h1 : fix_markdown_file fs path fixes = (fs, false) := by
    unfold fix_markdown_file
    rw [h]
  refine ⟨h1, ?_⟩
  show ((processFiles (fix_markdown_file fs path fixes).1 rest).1,
    (processFiles (fix_markdown_file fs path fixes).1 rest).2 +
      (if (fix_markdown_file fs path fixes).2 then 1 else 0)) = processFiles fs rest
  rw [h1]
  simp

/-- C8, witness: skipping a missing file at a concrete input. -/
theorem claim8_missing_file_skipped_witness :
    fix_markdown_file (fun _ => none) "README.md" [] = ((fun _ => none), false) ∧
    processFiles (fun _ => none) [("README.md", [])] = processFiles (fun _ => none) [] :=
  claim8_missing_file_skipped (fun _ => none) "README.md" [] [] rfl

theorem applyFixes_fst (fixes : List (List Char × List Char)) :
    ∀ content, (applyFixes fixes content).1 = List.foldl specStep content fixes := by
  induction fixes with
  | nil => intro content; rfl
  | cons rule rest ih =>
    intro content
    by_cases hg : containsSub rule.1 content = true
    · simp only [applyFixes, if_pos hg, List.foldl_cons, specStep]
      exact ih _
    · simp only [applyFixes, if_neg hg, List.foldl_cons, specStep]
      exact ih _

theorem applyFixes_snd_zero (fixes : List (List Char × List Char)) :
    ∀ content, (applyFixes fixes content).2 = 0 → (applyFixes fixes content).1 = content := by
  induction fixes with
  | nil => intro content _; rfl
  | cons rule rest ih =>
    intro content h
    by_cases hg : containsSub rule.1 content = true
    · simp only [applyFixes, if_pos hg] at h
      exact absurd h (Nat.succ_ne_zero _)
    · simp only [applyFixes, if_neg hg] at h ⊢
      exact ih content h

/-- C9: the content `fix_markdown_file` leaves stored for the file is
exactly the left fold of guarded replace-all over the rule list, so a
later rule matches against, and can rewrite, the text produced by an
earlier rule. -/
theorem claim9_foldl_semantics (fs : String → Option (List Char)) (path : String)
    (content : List Char) (fixes : List (List Char × List Char))
    (h : fs path = some content) :
    (fix_markdown_file fs path fixes).1 path = some (List.foldl specStep content fixes) := by
  rw [fix_markdown_file_some fixes h]
  by_cases hpos : 0 < (applyFixes fixes content).2
  · rw [if_pos hpos]
    show (if path = path then some (applyFixes fixes content).1 else fs path) = _
    rw [if_pos rfl, applyFixes_fst]
  · rw [if_neg hpos]
    show fs path = _
    rw [h, ← applyFixes_fst, applyFixes_snd_zero fixes content (Nat.eq_zero_of_not_pos hpos)]

/-- C9, witness: a two-rule list applied in order at a concrete file;
the second rule matches text created by the first. -/
theorem claim9_foldl_semantics_witness :
    (fix_markdown_file (fun p => if p = "A.md" then some ("ba".toList) else none) "A.md"
      [("b".toList, "c".toList), ("ca".toList, "d".toList)]).1 "A.md" =
    some (List.foldl specStep ("ba".toList)
      [("b".toList, "c".toList), ("ca".toList, "d".toList)]) :=
  claim9_foldl_semantics _ _ ("ba".toList) _ (by decide)

theorem applyFixes_snd_pos_iff (fixes : List (List Char × List Char)) :
    ∀ content, 0 < (applyFixes fixes content).2 ↔
      ∃ i, ∃ hi : i < fixes.length,
        fixes[i].1 <:+: List.foldl specStep content (fixes.take i) := by
  induction fixes with
  | nil => intro content; simp [applyFixes]
  | cons rule rest ih =>
    intro content
    by_cases hg : containsSub rule.1 content = true
    · simp only [applyFixes, if_pos hg]
      constructor
      · intro _
        refine ⟨0, by simp, ?_⟩
        simp only [List.take_zero, List.foldl_nil, List.getElem_cons_zero]
        exact containsSub_iff.mp hg
      · intro _
        exact Nat.succ_pos _
    · simp only [applyFixes, if_neg hg]
      rw [ih content]
      constructor
      · rintro ⟨i, hi, hocc⟩
        refine ⟨i + 1, by simpa using Nat.succ_lt_succ hi, ?_⟩
        simp only [List.getElem_cons_succ, List.take_succ_cons, List.foldl_cons]
        rw [show specStep content rule = content from by simp [specStep, hg]]
        exact hocc
      · rintro ⟨i, hi, hocc⟩
        cases i with
        | zero =>
          simp only [List.take_zero, List.foldl_nil, List.getElem_cons_zero] at hocc
          exact absurd (containsSub_iff.mpr hocc) hg
        | succ i' =>
          refine ⟨i', by simpa using hi, ?_⟩
          simp only [List.getElem_cons_succ, List.take_succ_cons, List.foldl_cons] at hocc
          rw [show specStep content rule = content from by simp [specStep, hg]] at hocc
          exact hocc

theorem replaceAllAux_self {old : List Char} (hold : old ≠ []) :
    ∀ fuel, ∀ s : List Char, s.length ≤ fuel → replaceAllAux old old fuel s = s := by
  intro fuel
  induction fuel with
  | zero =>
    intro s hl
    have h0 : s = [] := List.length_eq_zero.mp (Nat.le_zero.mp hl)
    subst h0
    rfl
  | succ fuel ih =>
    intro s hl
    cases s with
    | nil => rfl
    | cons c rest =>
      have hlr : rest.length ≤ fuel := by
        simp only [List.length_cons] at hl
        omega
      simp only [replaceAllAux]
      by_cases hp : old.isPrefixOf (c :: rest) = true
      · rw [if_pos hp]
        obtain ⟨t', ht'⟩ := List.isPrefixOf_iff_prefix.mp hp
        have hol : 0 < old.length := List.length_pos.mpr hold
        have htdrop : rest.drop (old.length - 1) = t' := by
          have h0 : (old ++ t').drop old.length = t' := List.drop_left old t'
          rw [ht'] at h0
          have h1 : old.length = (old.length - 1) + 1 := by omega
          rw [h1, List.drop_succ_cons] at h0
          exact h0
        have htlen : (rest.drop (old.length - 1)).length ≤ fuel := by
          rw [htdrop]
          have hla := congrArg List.length ht'
          simp only [List.length_append, List.length_cons] at hla
          omega
        rw [ih _ htlen, htdrop, ht']
      · rw [if_neg hp, ih rest hlr]

theorem pyReplace_self (old s : List Char) : pyReplace old old s = s := by
  by_cases h : old = []
  · subst h
    rw [pyReplace, if_pos rfl]
    simp
  · rw [pyReplace, if_neg h]
    exact replaceAllAux_self h s.length s Nat.le.refl

theorem applyFixes_id_rules (fixes : List (List Char × List Char)) :
    ∀ content, (∀ r ∈ fixes, r.1 = r.2) → (applyFixes fixes content).1 = content := by
  induction fixes with
  | nil => intro content _; rfl
  | cons rule rest ih =>
    intro content hid
    have h12 : rule.1 = rule.2 := hid rule (List.mem_cons_self _ _)
    have hrest : ∀ r ∈ rest, r.1 = r.2 := fun r hr => hid r (List.mem_cons_of_mem _ hr)
    by_cases hg : containsSub rule.1 content = true
    · simp only [applyFixes, if_pos hg]
      rw [← h12, pyReplace_self]
      exact ih content hrest
    · simp only [applyFixes, if_neg hg]
      exact ih content hrest

/-- C10: `fix_markdown_file` returns `True`, and rewrites the file,
exactly when some rule's stale link occurs in the evolving content at
the moment that rule is tried; when every rule is an identity pair
the stored content stays byte-identical even though the return value
may be `True`. -/
theorem claim10_return_true_iff_match (fs : String → Option (List Char)) (path : String)
    (content : List Char) (fixes : List (List Char × List Char))
    (h : fs path = some content) :
    ((fix_markdown_file fs path fixes).2 = true ↔
      ∃ i, ∃ hi : i < fixes.length,
        fixes[i].1 <:+: List.foldl specStep content (fixes.take i)) ∧
    ((fix_markdown_file fs path fixes).2 = false →
      fix_markdown_file fs path fixes = (fs, false)) ∧
    ((∀ r ∈ fixes, r.1 = r.2) →
      (fix_markdown_file fs path fixes).1 path = some content) := by
  rw [fix_markdown_file_some fixes h]
  by_cases hpos : 0 < (applyFixes fixes content).2
  · rw [if_pos hpos]
    refine ⟨?_, ?_, ?_⟩
    · exact iff_of_true rfl ((applyFixes_snd_pos_iff fixes content).mp hpos)
    · intro hf
      simp at hf
    · intro hid
      show (if path = path then some (applyFixes fixes content).1 else fs path) = some content
      rw [if_pos rfl, applyFixes_id_rules fixes content hid]
  · rw [if_neg hpos]
    refine ⟨?_, fun _ => rfl, fun _ => h⟩
    exact iff_of_false (by simp)
      (fun hex => hpos ((applyFixes_snd_pos_iff fixes content).mpr hex))

/-- C10, witness: an identity rule that matches — the function
returns `True` yet the stored content is byte-identical. -/
theorem claim10_return_true_iff_match_witness :
    (fix_markdown_file (fun p => if p = "R.md" then some ("(#overview) x".toList) else none)
      "R.md" [("(#overview)".toList, "(#overview)".toList)]).2 = true ∧
    (fix_markdown_file (fun p => if p = "R.md" then some ("(#overview) x".toList) else none)
      "R.md" [("(#overview)".toList, "(#overview)".toList)]).1 "R.md" =
      some ("(#overview) x".toList) := by
  have h := claim10_return_true_iff_match
    (fun p => if p = "R.md" then some ("(#overview) x".toList) else none)
    "R.md" ("(#overview) x".toList) [("(#overview)".toList, "(#overview)".toList)]
    (by decide)
  refine ⟨?_, ?_⟩
  · exact h.1.mpr ⟨0, by decide, containsSub_iff.mp (by decide)⟩
  · exact h.2.2 (by decide)
